import Mathlib

/-!
Verification of the table-tagging core of the ILMT/BigFix weekly compressor.

The repository maintains a tab-delimited inventory table and annotates it
with status columns via ten near-identical scripts under `scripts/`.  Each
script loads a reference list of hostnames, resolves an anchor column in the
table header, places a status column directly after the anchor, and writes
YES/NO-style membership labels into every data row.

This file gives a shallow embedding of that algorithm:

* a file on disk is modelled as `Option (List String)` — `none` when the
  path does not exist, otherwise the list of physical lines (each line is
  the text between line terminators; `csv.writer` with `lineterminator`
  `"\n"` writes exactly one line per row);
* `lineToRow`/`rowToLine` embed `csv.reader`/`csv.writer` with delimiter
  `"\t"` on quote-free content (the spec's external-interface section fixes
  the format to plain tab-delimited text with no escaping conventions);
* Python's `list.insert`, `list.pop`, `list.extend`-padding and `str.strip`
  are embedded by `pyInsert`, `pyPop`, `padTo` and `pyStrip`, keeping
  Python's clamping behaviour of `insert` past the end of a list;
* `runTagFile` is the shared body of the six anchored scripts
  (015, 020, 025, 030, 040, 050), which are identical up to the status
  column name, the anchor-candidate list and the label pair;
  `tag_reporting_status` (script 005) and `tag_cmdb_status` (script 010)
  are embedded separately because their anchor handling differs.
-/

/-- Whitespace characters stripped by Python's `str.strip()` (ASCII fragment). -/
def pyIsSpace (c : Char) : Bool :=
  c = ' ' || c = '\t' || c = '\n' || c = '\r' || c = '\x0B' || c = '\x0C'

/-- Strip leading and trailing whitespace from a character list. -/
def stripChars (cs : List Char) : List Char :=
  (((cs.dropWhile pyIsSpace).reverse).dropWhile pyIsSpace).reverse

/-- Embedding of Python's `str.strip()`. -/
def pyStrip (s : String) : String :=
  String.mk (stripChars s.toList)

/-- Split a character list at tab characters; `acc` holds the current field
reversed.  This is `csv.reader`'s field splitting on quote-free content. -/
def splitFieldsAux : List Char → List Char → List (List Char)
  | [], acc => [acc.reverse]
  | c :: cs, acc =>
      if c = '\t' then acc.reverse :: splitFieldsAux cs []
      else splitFieldsAux cs (c :: acc)

/-- Split a line's characters into tab-separated fields. -/
def splitFields (cs : List Char) : List (List Char) :=
  splitFieldsAux cs []

/-- Join fields with tab characters (csv.writer on quote-free fields). -/
def joinFields : List (List Char) → List Char
  | [] => []
  | [f] => f
  | f :: fs => f ++ '\t' :: joinFields fs

/-- Parse one physical line into a row, as `csv.reader` does with delimiter
`"\t"` on quote-free input: a blank line yields the empty row. -/
def lineToRow (l : String) : List String :=
  if l.toList = [] then []
  else (splitFields l.toList).map (fun cs => String.mk cs)

/-- Serialize one row to a physical line, as `csv.writer` does with
delimiter `"\t"` on quote-free fields. -/
def rowToLine (r : List String) : String :=
  String.mk (joinFields (r.map String.toList))

/-- Byte content of a file from its lines (`lineterminator` is `"\n"`). -/
def serializeLines (ls : List String) : String :=
  String.join (ls.map (fun l => l ++ "\n"))

/-- Embedding of Python's `list.insert(i, x)`: positions past the end of the
list are clamped to an append. -/
def pyInsert (i : Nat) (x : String) (xs : List String) : List String :=
  xs.take i ++ x :: xs.drop i

/-- Embedding of Python's `list.pop(i)` (element removal; the popped value
is read separately with `List.getD`). -/
def pyPop (i : Nat) (xs : List String) : List String :=
  xs.take i ++ xs.drop (i + 1)

/-- Embedding of `row.extend([""] * (n - len(row)))`: pad a row with empty
fields up to length `n` (no effect when the row is already long enough). -/
def padTo (n : Nat) (xs : List String) : List String :=
  xs ++ List.replicate (n - xs.length) ""

/-- Embedding of Python's `list.index` wrapped in `try`/`except`: the index
of the first occurrence, or `none`. -/
def listIndexOf (a : String) : List String → Option Nat
  | [] => none
  | x :: xs => if x = a then some 0 else (listIndexOf a xs).map (· + 1)

/-- Failure taxonomy of the spec: `FileNotFoundError` and the `ValueError`
raised when no anchor candidate is present in the header. -/
inductive TagError where
  | notFound
  | invalidSchema
deriving DecidableEq

/-- Decidable equality on operation results, for concrete evaluation. -/
instance instDecEqExcept {e a : Type} [DecidableEq e] [DecidableEq a] :
    DecidableEq (Except e a)
  | Except.error x, Except.error y =>
      if h : x = y then isTrue (congrArg Except.error h)
      else isFalse (fun c => h (Except.error.inj c))
  | Except.error _, Except.ok _ => isFalse (fun c => Except.noConfusion c)
  | Except.ok _, Except.error _ => isFalse (fun c => Except.noConfusion c)
  | Except.ok x, Except.ok y =>
      if h : x = y then isTrue (congrArg Except.ok h)
      else isFalse (fun c => h (Except.ok.inj c))

/-- Keys collected from the data rows of a reference file: the trimmed
first field of each row, skipping empty rows and empty keys, duplicates
collapsed (the Python code accumulates them into a `set`). -/
def collectNames : List (List String) → List String
  | [] => []
  | r :: rs =>
      let rest := collectNames rs
      match r with
      | [] => rest
      | k :: _ =>
          let n := pyStrip k
          if n = "" then rest else if n ∈ rest then rest else n :: rest

/-- Reference set of a parsed reference file: all rows after the header
row contribute their trimmed, non-empty first field. -/
def namesOfRows (rows : List (List String)) : List String :=
  collectNames (rows.drop 1)

/-- Embedding of `load_computer_names` (and its per-script clones): reads
the reference file, raising `FileNotFoundError` when the path is missing,
and returns the set of trimmed non-empty first-column values of the rows
after the header. -/
def load_computer_names (file : Option (List String)) :
    Except TagError (List String) :=
  match file with
  | none => Except.error TagError.notFound
  | some ls => Except.ok (namesOfRows (ls.map lineToRow))

/-- Scan the anchor candidates in priority order and return the index of
the first header entry matching the first present candidate (the
`for`/`try`/`except`/`else` ladder of scripts 025, 040 and 050; a single
candidate models the plain `header.index` of 015, 020 and 030). -/
def resolveAnchor (cands : List String) (header : List String) : Option Nat :=
  match cands with
  | [] => none
  | c :: rest =>
      match listIndexOf c header with
      | some i => some i
      | none => resolveAnchor rest header

/-- Row update of the relocation branch: capture the existing value (rows
shorter than the current index contribute the empty string), remove it,
pad up to the desired index and reinsert the captured value there. -/
def relocateRow (current desired : Nat) (row : List String) : List String :=
  if current < row.length then
    pyInsert desired (row.getD current "") (padTo desired (pyPop current row))
  else
    pyInsert desired "" (padTo desired row)

/-- Idempotent column placement shared by the anchored scripts: insert the
status column at the desired index when absent, leave it alone when already
there, and relocate it (carrying per-row values) otherwise.  Returns the
updated header and data rows. -/
def ensureHeaderAndRows (statusHeader : String) (desired : Nat)
    (header : List String) (dataRows : List (List String)) :
    List String × List (List String) :=
  match listIndexOf statusHeader header with
  | some current =>
      if current = desired then (header, dataRows)
      else
        (pyInsert desired statusHeader (pyPop current header),
         dataRows.map (relocateRow current desired))
  | none =>
      (pyInsert desired statusHeader header,
       dataRows.map (fun r => pyInsert desired "" (padTo desired r)))

/-- Value-assignment pass for one data row: a fully empty row is skipped;
otherwise the row's key is its trimmed first field, the row is padded so
the status index is in range, and the membership label is written there. -/
def assignRow (names : List String) (yes no : String) (statusIdx : Nat)
    (row : List String) : List String :=
  match row with
  | [] => []
  | k :: _ =>
      let name := pyStrip k
      let status := if name ∈ names then yes else no
      let row' := if row.length ≤ statusIdx then
          row ++ List.replicate (statusIdx - row.length + 1) ""
        else row
      row'.set statusIdx status

/-- Pure table transform shared by the six anchored scripts: resolve the
anchor, place the status column after it, then assign membership labels. -/
def tagRows (statusHeader : String) (cands : List String) (yes no : String)
    (names : List String) (rows : List (List String)) :
    Except TagError (List (List String)) :=
  match rows with
  | [] => Except.ok []
  | header :: dataRows =>
      match resolveAnchor cands header with
      | none => Except.error TagError.invalidSchema
      | some ref =>
          let desired := ref + 1
          let p := ensureHeaderAndRows statusHeader desired header dataRows
          Except.ok (p.1 :: (p.2.map (assignRow names yes no desired)))

/-- Shared body of the six anchored tagging scripts (015, 020, 025, 030,
040, 050), parameterised by status-column name, anchor candidates and the
label pair.  Returns the table file's lines after the operation; an empty
table is a warning-only no-op that leaves the file untouched. -/
def runTagFile (statusHeader : String) (cands : List String) (yes no : String)
    (refFile tableFile : Option (List String)) :
    Except TagError (List String) :=
  match load_computer_names refFile with
  | Except.error e => Except.error e
  | Except.ok names =>
      match tableFile with
      | none => Except.error TagError.notFound
      | some tLines =>
          if tLines.map lineToRow = [] then Except.ok tLines
          else
            match tagRows statusHeader cands yes no names
                (tLines.map lineToRow) with
            | Except.error e => Except.error e
            | Except.ok outRows => Except.ok (outRows.map rowToLine)

/-- Script 015 `tag_delayed_status`. -/
def tag_delayed_status : Option (List String) → Option (List String) →
    Except TagError (List String) :=
  fun ref table =>
    runTagFile "Delayed Data Upload" ["CMDB Status"] "YES" "NO" ref table

/-- Script 020 `tag_failed_scan_status`. -/
def tag_failed_scan_status : Option (List String) → Option (List String) →
    Except TagError (List String) :=
  fun ref table =>
    runTagFile "Failed Scan" ["Delayed Data Upload"] "YES" "NO" ref table

/-- Script 025 `tag_missing_scan_status`. -/
def tag_missing_scan_status : Option (List String) → Option (List String) →
    Except TagError (List String) :=
  fun ref table =>
    runTagFile "Missing Scan" ["Failed Scan", "Delayed Data Upload"]
      "YES" "NO" ref table

/-- Script 030 `tag_scan_not_uploaded_status`. -/
def tag_scan_not_uploaded_status : Option (List String) →
    Option (List String) → Except TagError (List String) :=
  fun ref table =>
    runTagFile "Scan Not Uploaded" ["Missing Scan"] "YES" "NO" ref table

/-- Script 040 `tag_no_vm_manager_status`. -/
def tag_no_vm_manager_status : Option (List String) → Option (List String) →
    Except TagError (List String) :=
  fun ref table =>
    runTagFile "No VM Manager Data"
      ["No Scan Data", "Scan Not Uploaded", "Missing Scan", "Failed Scan",
       "Delayed Data Upload"] "YES" "NO" ref table

/-- Script 050 `tag_outdated_scan_status`. -/
def tag_outdated_scan_status : Option (List String) → Option (List String) →
    Except TagError (List String) :=
  fun ref table =>
    runTagFile "Outdated Scan"
      ["Outdated VM Manager Data", "No VM Manager Data", "No Scan Data",
       "Scan Not Uploaded", "Missing Scan", "Failed Scan",
       "Delayed Data Upload"] "YES" "NO" ref table

/-- Script 005 `tag_reporting_status`: no anchor column.  When the status
column already exists anywhere in the header its index is reused as-is;
otherwise the column is inserted at index 1 (rows are spliced without
padding, exactly as in the source). -/
def tag_reporting_status (refFile tableFile : Option (List String)) :
    Except TagError (List String) :=
  match load_computer_names refFile with
  | Except.error e => Except.error e
  | Except.ok names =>
      match tableFile with
      | none => Except.error TagError.notFound
      | some tLines =>
          match tLines.map lineToRow with
          | [] => Except.ok tLines
          | header :: dataRows =>
              let p :=
                match listIndexOf "Not reporting to BigFix" header with
                | some i => (header, dataRows, i)
                | none =>
                    (pyInsert 1 "Not reporting to BigFix" header,
                     dataRows.map (pyInsert 1 ""), 1)
              Except.ok
                ((p.1 :: (p.2.1.map
                  (assignRow names "Not Reporting" "Reporting" p.2.2))).map
                    rowToLine)

/-- Script 010 `tag_cmdb_status`: when the reference column
`Not reporting to BigFix` is absent it is not an error — the column is
inserted at index 1 (with row padding) and tagging proceeds with the CMDB
status column placed after it. -/
def tag_cmdb_status (refFile tableFile : Option (List String)) :
    Except TagError (List String) :=
  match load_computer_names refFile with
  | Except.error e => Except.error e
  | Except.ok names =>
      match tableFile with
      | none => Except.error TagError.notFound
      | some tLines =>
          match tLines.map lineToRow with
          | [] => Except.ok tLines
          | header :: dataRows =>
              let p :=
                match listIndexOf "Not reporting to BigFix" header with
                | some i => (header, dataRows, i)
                | none =>
                    (pyInsert 1 "Not reporting to BigFix" header,
                     dataRows.map (fun r => pyInsert 1 "" (padTo 1 r)), 1)
              let desired := p.2.2 + 1
              let q := ensureHeaderAndRows "CMDB Status" desired p.1 p.2.1
              Except.ok
                ((q.1 :: (q.2.map
                  (assignRow names "In CMDB" "Not in CMDB" desired))).map
                    rowToLine)

/-- Disk state visible to one tagging operation: the table file and the
reference file, each possibly absent. -/
structure Disk where
  table : Option (List String)
  ref : Option (List String)
deriving DecidableEq

/-- Run a tagging operation against the disk: the table file is overwritten
with the result on success and left untouched on failure (the scripts open
the table for writing only after all failure points have passed). -/
def diskRun
    (f : Option (List String) → Option (List String) →
      Except TagError (List String))
    (d : Disk) : Disk × Except TagError Unit :=
  match f d.ref d.table with
  | Except.error e => (d, Except.error e)
  | Except.ok newLines => ({ d with table := some newLines }, Except.ok ())

/-! ### Lemmas about the list primitives -/

theorem pyInsert_length (i : Nat) (x : String) (xs : List String) :
    (pyInsert i x xs).length = xs.length + 1 := by
  simp [pyInsert]
  omega

theorem pyInsert_getElem?_lt {i j : Nat} (x : String) (xs : List String)
    (hj : j < i) (hi : i ≤ xs.length) : (pyInsert i x xs)[j]? = xs[j]? := by
  rw [pyInsert, List.getElem?_append, List.length_take]
  rw [if_pos (by omega), List.getElem?_take, if_pos hj]

theorem pyInsert_getElem?_self {i : Nat} (x : String) (xs : List String)
    (hi : i ≤ xs.length) : (pyInsert i x xs)[i]? = some x := by
  rw [pyInsert, List.getElem?_append, List.length_take]
  rw [if_neg (by omega)]
  have h0 : i - min i xs.length = 0 := by omega
  rw [h0]
  simp

theorem pyInsert_getElem?_gt {i j : Nat} (x : String) (xs : List String)
    (hj : i < j) (hi : i ≤ xs.length) :
    (pyInsert i x xs)[j]? = xs[j - 1]? := by
  rw [pyInsert, List.getElem?_append, List.length_take]
  rw [if_neg (by omega)]
  have h0 : j - min i xs.length = (j - i - 1) + 1 := by omega
  rw [h0, List.getElem?_cons_succ, List.getElem?_drop]
  congr 1
  omega

theorem pyPop_length {i : Nat} (xs : List String) (hi : i < xs.length) :
    (pyPop i xs).length = xs.length - 1 := by
  simp [pyPop]
  omega

theorem pyPop_getElem?_lt {i j : Nat} (xs : List String)
    (hj : j < i) (hi : i ≤ xs.length) : (pyPop i xs)[j]? = xs[j]? := by
  rw [pyPop, List.getElem?_append, List.length_take]
  rw [if_pos (by omega), List.getElem?_take, if_pos hj]

theorem pyPop_getElem?_ge {i j : Nat} (xs : List String)
    (hj : i ≤ j) (hi : i ≤ xs.length) : (pyPop i xs)[j]? = xs[j + 1]? := by
  rw [pyPop, List.getElem?_append, List.length_take]
  rw [if_neg (by omega), List.getElem?_drop]
  congr 1
  omega

theorem padTo_length (n : Nat) (xs : List String) :
    (padTo n xs).length = max xs.length n := by
  simp [padTo]
  omega

theorem padTo_getElem?_lt {n j : Nat} (xs : List String)
    (hj : j < xs.length) : (padTo n xs)[j]? = xs[j]? := by
  rw [padTo, List.getElem?_append, if_pos hj]

theorem padTo_getElem?_pad {n j : Nat} (xs : List String)
    (h1 : xs.length ≤ j) (h2 : j < n) : (padTo n xs)[j]? = some "" := by
  rw [padTo, List.getElem?_append, if_neg (by omega), List.getElem?_replicate]
  rw [if_pos (by omega)]

theorem mem_pyInsert {a x : String} {i : Nat} {xs : List String} :
    a ∈ pyInsert i x xs ↔ a = x ∨ a ∈ xs := by
  constructor
  · intro h
    rcases List.mem_append.mp h with h1 | h2
    · exact Or.inr (List.take_subset i xs h1)
    · rcases List.mem_cons.mp h2 with h3 | h4
      · exact Or.inl h3
      · exact Or.inr (List.drop_subset i xs h4)
  · intro h
    rcases h with h1 | h2
    · subst h1
      exact List.mem_append.mpr (Or.inr (List.mem_cons_self _ _))
    · rw [← List.take_append_drop i xs] at h2
      rcases List.mem_append.mp h2 with h3 | h4
      · exact List.mem_append.mpr (Or.inl h3)
      · exact List.mem_append.mpr (Or.inr (List.mem_cons_of_mem x h4))

theorem mem_pyPop_sub {a : String} {i : Nat} {xs : List String}
    (h : a ∈ pyPop i xs) : a ∈ xs := by
  rcases List.mem_append.mp h with h1 | h2
  · exact List.take_subset i xs h1
  · exact List.drop_subset (i + 1) xs h2

/-! ### Lemmas about `listIndexOf` -/

theorem listIndexOf_some_lt {a : String} :
    ∀ {l : List String} {i : Nat}, listIndexOf a l = some i → i < l.length := by
  intro l
  induction l with
  | nil => intro i h; simp [listIndexOf] at h
  | cons x xs ih =>
      intro i h
      by_cases hx : x = a
      · rw [listIndexOf, if_pos hx] at h
        cases h
        simp
      · rw [listIndexOf, if_neg hx] at h
        rcases Option.map_eq_some'.mp h with ⟨j, hj, hji⟩
        have := ih hj
        simp only [List.length_cons]
        omega

theorem listIndexOf_getElem? {a : String} :
    ∀ {l : List String} {i : Nat}, listIndexOf a l = some i → l[i]? = some a := by
  intro l
  induction l with
  | nil => intro i h; simp [listIndexOf] at h
  | cons x xs ih =>
      intro i h
      by_cases hx : x = a
      · rw [listIndexOf, if_pos hx] at h
        cases h
        simp [hx]
      · rw [listIndexOf, if_neg hx] at h
        rcases Option.map_eq_some'.mp h with ⟨j, hj, hji⟩
        subst hji
        rw [List.getElem?_cons_succ]
        exact ih hj

theorem listIndexOf_earlier {a : String} :
    ∀ {l : List String} {i : Nat}, listIndexOf a l = some i →
      ∀ j < i, l[j]? ≠ some a := by
  intro l
  induction l with
  | nil => intro i h; simp [listIndexOf] at h
  | cons x xs ih =>
      intro i h j hj
      by_cases hx : x = a
      · rw [listIndexOf, if_pos hx] at h
        cases h
        omega
      · rw [listIndexOf, if_neg hx] at h
        rcases Option.map_eq_some'.mp h with ⟨k, hk, hki⟩
        subst hki
        cases j with
        | zero =>
            simp only [List.getElem?_cons_zero]
            intro hc
            exact hx (Option.some.inj hc)
        | succ m =>
            rw [List.getElem?_cons_succ]
            exact ih hk m (by omega)

theorem listIndexOf_eq_none {a : String} :
    ∀ {l : List String}, listIndexOf a l = none ↔ a ∉ l := by
  intro l
  induction l with
  | nil => simp [listIndexOf]
  | cons x xs ih =>
      by_cases hx : x = a
      · simp [listIndexOf, hx]
      · rw [listIndexOf, if_neg hx]
        simp only [Option.map_eq_none', List.mem_cons]
        rw [ih]
        constructor
        · intro h hc
          rcases hc with hc | hc
          · exact hx hc.symm
          · exact h hc
        · intro h hc
          exact h (Or.inr hc)

theorem listIndexOf_intro {a : String} :
    ∀ {l : List String} {i : Nat}, l[i]? = some a →
      (∀ j < i, l[j]? ≠ some a) → listIndexOf a l = some i := by
  intro l
  induction l with
  | nil => intro i h _; simp at h
  | cons x xs ih =>
      intro i h hearly
      cases i with
      | zero =>
          simp only [List.getElem?_cons_zero] at h
          rw [listIndexOf, if_pos (Option.some.inj h)]
      | succ m =>
          have hx : ¬ x = a := by
            intro hc
            exact hearly 0 (by omega) (by simp [hc])
          rw [listIndexOf, if_neg hx]
          have hm : listIndexOf a xs = some m := by
            apply ih
            · have hcs : (x :: xs)[m + 1]? = xs[m]? :=
                List.getElem?_cons_succ
              rw [← hcs]
              exact h
            · intro j hj
              have := hearly (j + 1) (by omega)
              rw [List.getElem?_cons_succ] at this
              exact this
          rw [hm]
          rfl

theorem mem_of_listIndexOf {a : String} {l : List String} {i : Nat}
    (h : listIndexOf a l = some i) : a ∈ l := by
  have := listIndexOf_getElem? h
  rcases List.getElem?_eq_some.mp this with ⟨hlt, hget⟩
  exact hget ▸ List.getElem_mem hlt

/-! ### Lemmas about `resolveAnchor` -/

theorem resolveAnchor_elim {cands header : List String} {r : Nat}
    (h : resolveAnchor cands header = some r) :
    ∃ pre c post, cands = pre ++ c :: post ∧
      (∀ c' ∈ pre, listIndexOf c' header = none) ∧
      listIndexOf c header = some r := by
  induction cands with
  | nil => simp [resolveAnchor] at h
  | cons c rest ih =>
      rw [resolveAnchor] at h
      cases hc : listIndexOf c header with
      | some i =>
          rw [hc] at h
          cases h
          exact ⟨[], c, rest, rfl, by intro c' hc'; simp at hc', hc⟩
      | none =>
          rw [hc] at h
          rcases ih h with ⟨pre, c0, post, hcands, hpre, hc0⟩
          refine ⟨c :: pre, c0, post, by rw [hcands]; rfl, ?_, hc0⟩
          intro c' hc'
          rcases List.mem_cons.mp hc' with h1 | h2
          · exact h1 ▸ hc
          · exact hpre c' h2

theorem resolveAnchor_intro {pre post header : List String} {c : String}
    {r : Nat} (hpre : ∀ c' ∈ pre, listIndexOf c' header = none)
    (hc : listIndexOf c header = some r) :
    resolveAnchor (pre ++ c :: post) header = some r := by
  induction pre with
  | nil => rw [List.nil_append, resolveAnchor, hc]
  | cons p ps ih =>
      rw [List.cons_append, resolveAnchor, hpre p (List.mem_cons_self p ps)]
      exact ih (fun c' h' => hpre c' (List.mem_cons_of_mem p h'))

/-! ### Tab-free fields and the line round trip -/

/-- A field that contains no tab character (the delimiter). -/
def TabFree (s : String) : Prop := '\t' ∉ s.toList

instance (s : String) : Decidable (TabFree s) :=
  inferInstanceAs (Decidable ('\t' ∉ s.toList))

theorem splitFieldsAux_no_tab :
    ∀ (cs acc : List Char), '\t' ∉ acc →
      ∀ p ∈ splitFieldsAux cs acc, '\t' ∉ p := by
  intro cs
  induction cs with
  | nil =>
      intro acc hacc p hp
      rw [splitFieldsAux] at hp
      rcases List.mem_singleton.mp hp with h
      subst h
      intro hc
      exact hacc (List.mem_reverse.mp hc)
  | cons c cs ih =>
      intro acc hacc p hp
      rw [splitFieldsAux] at hp
      by_cases hc : c = '\t'
      · rw [if_pos hc] at hp
        rcases List.mem_cons.mp hp with h1 | h2
        · subst h1
          intro hx
          exact hacc (List.mem_reverse.mp hx)
        · exact ih [] (by simp) p h2
      · rw [if_neg hc] at hp
        apply ih (c :: acc) _ p hp
        intro hx
        rcases List.mem_cons.mp hx with h1 | h2
        · exact hc h1.symm
        · exact hacc h2

theorem lineToRow_tabFree (l : String) : ∀ f ∈ lineToRow l, TabFree f := by
  intro f hf
  rw [lineToRow] at hf
  by_cases h0 : l.toList = []
  · rw [if_pos h0] at hf
    simp at hf
  · rw [if_neg h0] at hf
    rcases List.mem_map.mp hf with ⟨p, hp, hpf⟩
    have := splitFieldsAux_no_tab l.toList [] (by simp) p hp
    rw [TabFree, ← hpf]
    exact this

theorem splitFieldsAux_flat (f : List Char) (hf : '\t' ∉ f) :
    ∀ acc, splitFieldsAux f acc = [acc.reverse ++ f] := by
  induction f with
  | nil => intro acc; simp [splitFieldsAux]
  | cons c cs ih =>
      intro acc
      have hc : ¬ c = '\t' := fun h => hf (h ▸ List.mem_cons_self c cs)
      rw [splitFieldsAux, if_neg hc]
      rw [ih (fun h => hf (List.mem_cons_of_mem c h)) (c :: acc)]
      simp

theorem splitFieldsAux_step (f rest : List Char) (hf : '\t' ∉ f) :
    ∀ acc, splitFieldsAux (f ++ '\t' :: rest) acc =
      (acc.reverse ++ f) :: splitFieldsAux rest [] := by
  induction f with
  | nil => intro acc; simp [splitFieldsAux]
  | cons c cs ih =>
      intro acc
      have hc : ¬ c = '\t' := fun h => hf (h ▸ List.mem_cons_self c cs)
      rw [List.cons_append, splitFieldsAux, if_neg hc]
      rw [ih (fun h => hf (List.mem_cons_of_mem c h)) (c :: acc)]
      simp

theorem joinFields_cons_cons (f g : List Char) (gs : List (List Char)) :
    joinFields (f :: g :: gs) = f ++ '\t' :: joinFields (g :: gs) := rfl

theorem splitFields_joinFields :
    ∀ (fs : List (List Char)), fs ≠ [] → (∀ f ∈ fs, '\t' ∉ f) →
      splitFields (joinFields fs) = fs := by
  intro fs
  induction fs with
  | nil => intro h; exact absurd rfl h
  | cons f fs ih =>
      intro _ htf
      cases fs with
      | nil =>
          rw [joinFields, splitFields]
          rw [splitFieldsAux_flat f (htf f (List.mem_cons_self f [])) []]
          simp
      | cons g gs =>
          rw [joinFields_cons_cons, splitFields]
          rw [splitFieldsAux_step f (joinFields (g :: gs))
            (htf f (List.mem_cons_self f _)) []]
          have := ih (List.cons_ne_nil g gs)
            (fun x hx => htf x (List.mem_cons_of_mem f hx))
          rw [splitFields] at this
          rw [this]
          simp

theorem map_mk_toList (r : List String) :
    r.map (fun s => String.mk s.toList) = r := by
  induction r with
  | nil => rfl
  | cons x xs ih =>
      rw [List.map_cons, ih]
      exact rfl

theorem toList_eq_nil_iff (x : String) : x.toList = [] ↔ x = "" := by
  constructor
  · intro h
    have : String.mk x.toList = String.mk [] := by rw [h]
    exact this
  · intro h
    rw [h]
    rfl

/-- Round trip of one row through serialization and parsing: holds for the
empty row, for rows of at least two fields, and for non-empty singleton
rows, whenever no field contains the tab delimiter. -/
theorem lineToRow_rowToLine (r : List String) (htf : ∀ f ∈ r, TabFree f)
    (hshape : r = [] ∨ 2 ≤ r.length ∨ ∃ x, r = [x] ∧ x ≠ "") :
    lineToRow (rowToLine r) = r := by
  rcases hshape with h0 | h2 | ⟨x, hx, hxne⟩
  · subst h0
    rfl
  · match r, h2 with
    | f :: g :: t, _ =>
        rw [rowToLine, lineToRow]
        have hmk : (String.mk (joinFields ((f :: g :: t).map String.toList))).toList
            = joinFields ((f :: g :: t).map String.toList) := rfl
        rw [hmk]
        have hne : joinFields ((f :: g :: t).map String.toList) ≠ [] := by
          rw [List.map_cons, List.map_cons, joinFields_cons_cons]
          intro hc
          rcases List.append_eq_nil.mp hc with ⟨_, h⟩
          exact List.noConfusion h
        rw [if_neg hne]
        rw [splitFields_joinFields ((f :: g :: t).map String.toList)
          (by simp) ?tf]
        case tf =>
          intro p hp
          rcases List.mem_map.mp hp with ⟨s, hs, hsp⟩
          rw [← hsp]
          exact htf s hs
        rw [List.map_map]
        exact map_mk_toList (f :: g :: t)
  · subst hx
    rw [rowToLine, lineToRow]
    have hmk : (String.mk (joinFields ([x].map String.toList))).toList
        = joinFields ([x].map String.toList) := rfl
    rw [hmk]
    have hj : joinFields ([x].map String.toList) = x.toList := by
      rw [List.map_cons, List.map_nil, joinFields]
    rw [hj]
    have hne : x.toList ≠ [] := fun hc => hxne ((toList_eq_nil_iff x).mp hc)
    rw [if_neg hne]
    rw [splitFields, splitFieldsAux_flat x.toList (htf x (by simp)) []]
    rw [List.map_cons, List.map_nil, List.reverse_nil, List.nil_append]
    rfl

/-! ### Lemmas about `assignRow` -/

theorem assignRow_nil (names : List String) (y no : String) (i : Nat) :
    assignRow names y no i [] = [] := rfl

theorem assignRow_cons (names : List String) (y no : String) (i : Nat)
    (k : String) (t : List String) :
    assignRow names y no i (k :: t) =
      (if (k :: t).length ≤ i then
          (k :: t) ++ List.replicate (i - (k :: t).length + 1) ""
        else (k :: t)).set i (if pyStrip k ∈ names then y else no) := rfl

theorem assignRow_length (names : List String) (y no : String) (i : Nat)
    (k : String) (t : List String) :
    (assignRow names y no i (k :: t)).length = max (k :: t).length (i + 1) := by
  rw [assignRow_cons]
  by_cases h : (k :: t).length ≤ i
  · rw [if_pos h, List.length_set, List.length_append, List.length_replicate]
    omega
  · rw [if_neg h, List.length_set]
    omega

theorem assignRow_getElem?_self (names : List String) (y no : String)
    (i : Nat) (k : String) (t : List String) :
    (assignRow names y no i (k :: t))[i]? =
      some (if pyStrip k ∈ names then y else no) := by
  rw [assignRow_cons, List.getElem?_set, if_pos rfl]
  by_cases h : (k :: t).length ≤ i
  · rw [if_pos h]
    rw [if_pos (by rw [List.length_append, List.length_replicate]; omega)]
  · rw [if_neg h]
    rw [if_pos (by omega)]

theorem assignRow_head (names : List String) (y no : String) {i : Nat}
    (hi : 1 ≤ i) (k : String) (t : List String) :
    ∃ t', assignRow names y no i (k :: t) = k :: t' := by
  obtain ⟨m, rfl⟩ : ∃ m, i = m + 1 := ⟨i - 1, by omega⟩
  rw [assignRow_cons]
  by_cases h : (k :: t).length ≤ m + 1
  · rw [if_pos h, List.cons_append, List.set_cons_succ]
    exact ⟨_, rfl⟩
  · rw [if_neg h, List.set_cons_succ]
    exact ⟨_, rfl⟩

theorem assignRow_idem (names : List String) (y no : String) {i : Nat}
    (hi : 1 ≤ i) (r : List String) :
    assignRow names y no i (assignRow names y no i r) =
      assignRow names y no i r := by
  cases r with
  | nil => rfl
  | cons k t =>
      obtain ⟨t', ht'⟩ := assignRow_head names y no hi k t
      have hlen : (k :: t').length = max (k :: t).length (i + 1) := by
        rw [← ht']
        exact assignRow_length names y no i k t
      rw [ht', assignRow_cons]
      rw [if_neg (by omega)]
      rw [← ht', assignRow_cons]
      by_cases h : (k :: t).length ≤ i
      · rw [if_pos h, List.set_set]
      · rw [if_neg h, List.set_set]

/-! ### Field provenance lemmas (used for the serialization round trip) -/

theorem mem_padTo {f : String} {n : Nat} {xs : List String}
    (h : f ∈ padTo n xs) : f ∈ xs ∨ f = "" := by
  rcases List.mem_append.mp h with h1 | h2
  · exact Or.inl h1
  · exact Or.inr (List.eq_of_mem_replicate h2)

theorem getD_mem_or_default (r : List String) (i : Nat) :
    r.getD i "" ∈ r ∨ r.getD i "" = "" := by
  by_cases h : i < r.length
  · rw [List.getD_eq_getElem r "" h]
    exact Or.inl (List.getElem_mem h)
  · rw [List.getD_eq_default r "" (by omega)]
    exact Or.inr rfl

theorem mem_relocateRow {f : String} {current desired : Nat}
    {r : List String} (hf : f ∈ relocateRow current desired r) :
    f ∈ r ∨ f = "" := by
  rw [relocateRow] at hf
  by_cases h : current < r.length
  · rw [if_pos h] at hf
    rcases mem_pyInsert.mp hf with h1 | h2
    · rcases getD_mem_or_default r current with hm | hm
      · exact Or.inl (h1 ▸ hm)
      · exact Or.inr (h1 ▸ hm)
    · rcases mem_padTo h2 with h3 | h3
      · exact Or.inl (mem_pyPop_sub h3)
      · exact Or.inr h3
  · rw [if_neg h] at hf
    rcases mem_pyInsert.mp hf with h1 | h2
    · exact Or.inr h1
    · rcases mem_padTo h2 with h3 | h3
      · exact Or.inl h3
      · exact Or.inr h3

theorem mem_assignRow {f : String} {names : List String} {y no : String}
    {i : Nat} {r : List String} (hf : f ∈ assignRow names y no i r) :
    f ∈ r ∨ f = "" ∨ f = y ∨ f = no := by
  cases r with
  | nil => rw [assignRow_nil] at hf; simp at hf
  | cons k t =>
      rw [assignRow_cons] at hf
      rcases List.mem_or_eq_of_mem_set hf with h1 | h2
      · by_cases hp : (k :: t).length ≤ i
        · rw [if_pos hp] at h1
          rcases List.mem_append.mp h1 with h3 | h3
          · exact Or.inl h3
          · exact Or.inr (Or.inl (List.eq_of_mem_replicate h3))
        · rw [if_neg hp] at h1
          exact Or.inl h1
      · by_cases hm : pyStrip k ∈ names
        · rw [if_pos hm] at h2
          exact Or.inr (Or.inr (Or.inl h2))
        · rw [if_neg hm] at h2
          exact Or.inr (Or.inr (Or.inr h2))

theorem assignRow_nil_iff (names : List String) (y no : String) (i : Nat)
    (r : List String) : assignRow names y no i r = [] ↔ r = [] := by
  cases r with
  | nil => simp [assignRow_nil]
  | cons k t =>
      constructor
      · intro h
        have := congrArg List.length h
        rw [assignRow_length] at this
        simp at this
      · intro h
        exact absurd h (List.cons_ne_nil k t)

/-! ### More lemmas about `listIndexOf` on modified headers -/

theorem resolveAnchor_nil_header (cands : List String) :
    resolveAnchor cands [] = none := by
  induction cands with
  | nil => rfl
  | cons c rest ih =>
      rw [resolveAnchor]
      have : listIndexOf c [] = none := rfl
      rw [this]
      exact ih

theorem not_mem_pyPop_of_count {sh : String} {h : List String} {c : Nat}
    (hcnt : h.count sh ≤ 1) (hc : listIndexOf sh h = some c) :
    sh ∉ pyPop c h := by
  have hlt := listIndexOf_some_lt hc
  have hget := listIndexOf_getElem? hc
  intro hmem
  rcases List.mem_append.mp hmem with h1 | h2
  · rcases List.mem_iff_getElem?.mp h1 with ⟨j, hj⟩
    rw [List.getElem?_take] at hj
    by_cases hjc : j < c
    · rw [if_pos hjc] at hj
      exact listIndexOf_earlier hc j hjc hj
    · rw [if_neg hjc] at hj
      exact Option.noConfusion hj
  · have h2' : 0 < (h.drop (c + 1)).count sh := List.count_pos_iff.mpr h2
    have h1' : 0 < (h.take (c + 1)).count sh := by
      apply List.count_pos_iff.mpr
      apply List.mem_iff_getElem?.mpr
      refine ⟨c, ?_⟩
      rw [List.getElem?_take, if_pos (by omega)]
      exact hget
    have hsum := List.count_append sh (h.take (c + 1)) (h.drop (c + 1))
    rw [List.take_append_drop] at hsum
    omega

/-! ### Branch equations of `ensureHeaderAndRows` and header stability -/

theorem ensure_eq_none {sh : String} {desired : Nat} {h : List String}
    (ds : List (List String)) (hidx : listIndexOf sh h = none) :
    ensureHeaderAndRows sh desired h ds =
      (pyInsert desired sh h,
       ds.map (fun r => pyInsert desired "" (padTo desired r))) := by
  simp only [ensureHeaderAndRows, hidx]

theorem ensure_eq_at_desired {sh : String} {desired : Nat} {h : List String}
    (ds : List (List String)) (hidx : listIndexOf sh h = some desired) :
    ensureHeaderAndRows sh desired h ds = (h, ds) := by
  simp only [ensureHeaderAndRows, hidx]
  simp

theorem ensure_eq_relocate {sh : String} {desired current : Nat}
    {h : List String} (ds : List (List String))
    (hidx : listIndexOf sh h = some current) (hne : current ≠ desired) :
    ensureHeaderAndRows sh desired h ds =
      (pyInsert desired sh (pyPop current h),
       ds.map (relocateRow current desired)) := by
  simp only [ensureHeaderAndRows, hidx]
  rw [if_neg hne]

theorem listIndexOf_insert_fresh {sh : String} {i : Nat} {xs : List String}
    (hi : i ≤ xs.length) (hns : sh ∉ xs) :
    listIndexOf sh (pyInsert i sh xs) = some i := by
  apply listIndexOf_intro
  · exact pyInsert_getElem?_self sh xs hi
  · intro j hj hc
    rw [pyInsert_getElem?_lt sh xs hj hi] at hc
    rcases List.getElem?_eq_some.mp hc with ⟨hlt, hget⟩
    exact hns (hget ▸ List.getElem_mem hlt)

theorem listIndexOf_insert_after_pop {sh : String} {current desired : Nat}
    {h : List String} (hcur : listIndexOf sh h = some current)
    (hd : desired < current) :
    listIndexOf sh (pyInsert desired sh (pyPop current h)) = some desired := by
  have hclen := listIndexOf_some_lt hcur
  have hpoplen : (pyPop current h).length = h.length - 1 := pyPop_length h hclen
  have hdlen : desired ≤ (pyPop current h).length := by omega
  apply listIndexOf_intro
  · exact pyInsert_getElem?_self sh _ hdlen
  · intro j hj hc
    rw [pyInsert_getElem?_lt sh _ hj hdlen] at hc
    rw [pyPop_getElem?_lt h (by omega) (by omega)] at hc
    exact listIndexOf_earlier hcur j (by omega) hc

theorem listIndexOf_insert_after_pop_unique {sh : String}
    {current desired : Nat} {h : List String}
    (hcur : listIndexOf sh h = some current) (hcnt : h.count sh ≤ 1)
    (hdlt : desired < h.length) :
    listIndexOf sh (pyInsert desired sh (pyPop current h)) = some desired := by
  have hclen := listIndexOf_some_lt hcur
  have hpoplen : (pyPop current h).length = h.length - 1 := pyPop_length h hclen
  have hnm := not_mem_pyPop_of_count hcnt hcur
  exact listIndexOf_insert_fresh (by omega) hnm

theorem resolveAnchor_stable {cands h h' : List String} {ref : Nat}
    (href : resolveAnchor cands h = some ref)
    (hmem : ∀ c' ∈ h', c' ∈ h ∨ c' ∉ cands)
    (hpre : ∀ j, j ≤ ref → h'[j]? = h[j]?) :
    resolveAnchor cands h' = some ref := by
  rcases resolveAnchor_elim href with ⟨pre, c, post, hcands, hpre0, hc⟩
  subst hcands
  apply resolveAnchor_intro
  · intro c' hc'
    apply listIndexOf_eq_none.mpr
    intro hmem'
    rcases hmem c' hmem' with h1 | h2
    · exact (listIndexOf_eq_none.mp (hpre0 c' hc')) h1
    · exact h2 (List.mem_append.mpr (Or.inl hc'))
  · apply listIndexOf_intro
    · rw [hpre ref (le_refl ref)]
      exact listIndexOf_getElem? hc
    · intro j hj hcj
      rw [hpre j (by omega)] at hcj
      exact listIndexOf_earlier hc j hj hcj

theorem tagRows_cons_eq {sh yes no : String} {cands names h : List String}
    {ds : List (List String)} {ref : Nat}
    (href : resolveAnchor cands h = some ref) :
    tagRows sh cands yes no names (h :: ds) =
      Except.ok ((ensureHeaderAndRows sh (ref + 1) h ds).1 ::
        ((ensureHeaderAndRows sh (ref + 1) h ds).2.map
          (assignRow names yes no (ref + 1)))) := by
  simp only [tagRows, href]

theorem map_assign_idem (names : List String) (y no : String) {i : Nat}
    (hi : 1 ≤ i) (Y : List (List String)) :
    (Y.map (assignRow names y no i)).map (assignRow names y no i) =
      Y.map (assignRow names y no i) := by
  rw [List.map_map]
  exact List.map_congr_left (fun r _ => assignRow_idem names y no hi r)

/-- Core fixed-point property behind idempotence: when the status column
does not occur in the input header before its target position, the output
table of one anchored tagging pass is a fixed point of the pass. -/
theorem tagRows_fixedpoint (sh yes no : String) (cands names h : List String)
    (ds : List (List String)) (ref : Nat)
    (hshc : sh ∉ cands)
    (href : resolveAnchor cands h = some ref)
    (hpos : ref + 1 ≤ (listIndexOf sh h).getD (ref + 1))
    (out : List (List String))
    (hrun : tagRows sh cands yes no names (h :: ds) = Except.ok out) :
    tagRows sh cands yes no names out = Except.ok out := by
  rcases resolveAnchor_elim href with ⟨pre, c, post, hcands, hpre0, hc⟩
  have hreflt : ref < h.length := listIndexOf_some_lt hc
  rw [tagRows_cons_eq href] at hrun
  cases hidx : listIndexOf sh h with
  | none =>
      rw [ensure_eq_none ds hidx] at hrun
      have hout : (pyInsert (ref + 1) sh h) ::
          ((ds.map fun r => pyInsert (ref + 1) "" (padTo (ref + 1) r)).map
            (assignRow names yes no (ref + 1))) = out :=
        Except.ok.inj hrun
      subst hout
      have hns : sh ∉ h := listIndexOf_eq_none.mp hidx
      have hst : listIndexOf sh (pyInsert (ref + 1) sh h) = some (ref + 1) :=
        listIndexOf_insert_fresh (by omega) hns
      have href2 : resolveAnchor cands (pyInsert (ref + 1) sh h) = some ref := by
        apply resolveAnchor_stable href
        · intro c' hc'
          rcases mem_pyInsert.mp hc' with h1 | h2
          · rw [h1]
            exact Or.inr hshc
          · exact Or.inl h2
        · intro j hj
          exact pyInsert_getElem?_lt sh h (by omega) (by omega)
      rw [tagRows_cons_eq href2, ensure_eq_at_desired _ hst,
        map_assign_idem names yes no (by omega)]
  | some current =>
      have hcd : ref + 1 ≤ current := by
        rw [hidx] at hpos
        simpa using hpos
      by_cases hce : current = ref + 1
      · subst hce
        rw [ensure_eq_at_desired ds hidx] at hrun
        have hout : h :: (ds.map (assignRow names yes no (ref + 1))) = out :=
          Except.ok.inj hrun
        subst hout
        rw [tagRows_cons_eq href, ensure_eq_at_desired _ hidx,
          map_assign_idem names yes no (by omega)]
      · have hlt : ref + 1 < current := by omega
        have hcl : current < h.length := listIndexOf_some_lt hidx
        rw [ensure_eq_relocate ds hidx hce] at hrun
        have hout : (pyInsert (ref + 1) sh (pyPop current h)) ::
            ((ds.map (relocateRow current (ref + 1))).map
              (assignRow names yes no (ref + 1))) = out :=
          Except.ok.inj hrun
        subst hout
        have hst := listIndexOf_insert_after_pop hidx hlt
        have hpoplen : (pyPop current h).length = h.length - 1 :=
          pyPop_length h hcl
        have href2 : resolveAnchor cands
            (pyInsert (ref + 1) sh (pyPop current h)) = some ref := by
          apply resolveAnchor_stable href
          · intro c' hc'
            rcases mem_pyInsert.mp hc' with h1 | h2
            · rw [h1]
              exact Or.inr hshc
            · exact Or.inl (mem_pyPop_sub h2)
          · intro j hj
            rw [pyInsert_getElem?_lt sh _ (by omega) (by omega)]
            exact pyPop_getElem?_lt h (by omega) (by omega)
        rw [tagRows_cons_eq href2, ensure_eq_at_desired _ hst,
          map_assign_idem names yes no (by omega)]

theorem tabFree_empty : TabFree "" := by decide

theorem assign_row_roundtrip {names : List String} {y no : String} {i : Nat}
    (hi : 1 ≤ i) (hytf : TabFree y) (hntf : TabFree no)
    {x : List String} (hx : ∀ f ∈ x, TabFree f) :
    lineToRow (rowToLine (assignRow names y no i x)) =
      assignRow names y no i x := by
  cases x with
  | nil => rw [assignRow_nil]; rfl
  | cons k t =>
      apply lineToRow_rowToLine
      · intro f hf
        rcases mem_assignRow hf with h1 | h2 | h3 | h4
        · exact hx f h1
        · rw [h2]
          exact tabFree_empty
        · rw [h3]
          exact hytf
        · rw [h4]
          exact hntf
      · right
        left
        rw [assignRow_length]
        omega

/-- Every row written by one anchored tagging pass parses back to itself
(the serialization round trip holds on the pass's output). -/
theorem tagRows_output_roundtrip (sh yes no : String)
    (cands names h : List String) (ds : List (List String)) (ref : Nat)
    (hshtf : TabFree sh) (hytf : TabFree yes) (hntf : TabFree no)
    (href : resolveAnchor cands h = some ref)
    (hpos : ref + 1 ≤ (listIndexOf sh h).getD (ref + 1))
    (hhtf : ∀ f ∈ h, TabFree f)
    (hdstf : ∀ r ∈ ds, ∀ f ∈ r, TabFree f)
    (out : List (List String))
    (hrun : tagRows sh cands yes no names (h :: ds) = Except.ok out) :
    ∀ r ∈ out, lineToRow (rowToLine r) = r := by
  rcases resolveAnchor_elim href with ⟨pre, c, post, hcands, hpre0, hc⟩
  have hreflt : ref < h.length := listIndexOf_some_lt hc
  rw [tagRows_cons_eq href] at hrun
  cases hidx : listIndexOf sh h with
  | none =>
      rw [ensure_eq_none ds hidx] at hrun
      have hout : (pyInsert (ref + 1) sh h) ::
          ((ds.map fun r => pyInsert (ref + 1) "" (padTo (ref + 1) r)).map
            (assignRow names yes no (ref + 1))) = out :=
        Except.ok.inj hrun
      subst hout
      intro r hr
      rcases List.mem_cons.mp hr with hhd | htl
      · subst hhd
        apply lineToRow_rowToLine
        · intro f hf
          rcases mem_pyInsert.mp hf with h1 | h2
          · rw [h1]
            exact hshtf
          · exact hhtf f h2
        · right
          left
          rw [pyInsert_length]
          omega
      · rcases List.mem_map.mp htl with ⟨x, hx, hxr⟩
        rcases List.mem_map.mp hx with ⟨r0, hr0, hr0x⟩
        rw [← hxr]
        apply assign_row_roundtrip (by omega) hytf hntf
        intro f hf
        rw [← hr0x] at hf
        rcases mem_pyInsert.mp hf with h1 | h2
        · rw [h1]
          exact tabFree_empty
        · rcases mem_padTo h2 with h3 | h3
          · exact hdstf r0 hr0 f h3
          · rw [h3]
            exact tabFree_empty
  | some current =>
      have hcd : ref + 1 ≤ current := by
        rw [hidx] at hpos
        simpa using hpos
      by_cases hce : current = ref + 1
      · subst hce
        rw [ensure_eq_at_desired ds hidx] at hrun
        have hout : h :: (ds.map (assignRow names yes no (ref + 1))) = out :=
          Except.ok.inj hrun
        subst hout
        have hcl : ref + 1 < h.length := listIndexOf_some_lt hidx
        intro r hr
        rcases List.mem_cons.mp hr with hhd | htl
        · subst hhd
          apply lineToRow_rowToLine
          · exact hhtf
          · right
            left
            omega
        · rcases List.mem_map.mp htl with ⟨r0, hr0, hr0x⟩
          rw [← hr0x]
          exact assign_row_roundtrip (by omega) hytf hntf (hdstf r0 hr0)
      · have hlt : ref + 1 < current := by omega
        have hcl : current < h.length := listIndexOf_some_lt hidx
        rw [ensure_eq_relocate ds hidx hce] at hrun
        have hout : (pyInsert (ref + 1) sh (pyPop current h)) ::
            ((ds.map (relocateRow current (ref + 1))).map
              (assignRow names yes no (ref + 1))) = out :=
          Except.ok.inj hrun
        subst hout
        have hpoplen : (pyPop current h).length = h.length - 1 :=
          pyPop_length h hcl
        intro r hr
        rcases List.mem_cons.mp hr with hhd | htl
        · subst hhd
          apply lineToRow_rowToLine
          · intro f hf
            rcases mem_pyInsert.mp hf with h1 | h2
            · rw [h1]
              exact hshtf
            · exact hhtf f (mem_pyPop_sub h2)
          · right
            left
            rw [pyInsert_length]
            omega
        · rcases List.mem_map.mp htl with ⟨x, hx, hxr⟩
          rcases List.mem_map.mp hx with ⟨r0, hr0, hr0x⟩
          rw [← hxr]
          apply assign_row_roundtrip (by omega) hytf hntf
          intro f hf
          rw [← hr0x] at hf
          rcases mem_relocateRow hf with h1 | h2
          · exact hdstf r0 hr0 f h1
          · rw [h2]
            exact tabFree_empty

theorem map_roundtrip_id {X : List (List String)}
    (hX : ∀ r ∈ X, lineToRow (rowToLine r) = r) :
    (X.map rowToLine).map lineToRow = X := by
  induction X with
  | nil => rfl
  | cons a t ih =>
      simp only [List.map_cons]
      rw [hX a (List.mem_cons_self a t),
        ih (fun r hr => hX r (List.mem_cons_of_mem a hr))]

theorem runTagFile_cons (sh yes no : String)
    (cands refLines rest : List String) (l0 : String) :
    runTagFile sh cands yes no (some refLines) (some (l0 :: rest)) =
      (match tagRows sh cands yes no (namesOfRows (refLines.map lineToRow))
          (lineToRow l0 :: rest.map lineToRow) with
        | Except.error e => Except.error e
        | Except.ok outRows => Except.ok (outRows.map rowToLine)) := by
  simp only [runTagFile, load_computer_names, List.map_cons]
  rw [if_neg (List.cons_ne_nil _ _)]

theorem runTagFile_empty_table (sh yes no : String)
    (cands refLines : List String) :
    runTagFile sh cands yes no (some refLines) (some []) =
      Except.ok [] := rfl

/-- C2 (amended): for every pair of input files, when the status column is
not already present in the table header strictly before its target position
(anchor index + 1), running the same anchored tagging operation a second
time on the file written by the first run reproduces that file exactly —
the written line lists (hence the file bytes, which are a function of the
lines) are identical.  Label and column names are assumed tab-free, as the
delimited format requires. -/
theorem tag_idempotent_amended (sh yes no : String)
    (cands refLines tLines out1 : List String)
    (hshtf : TabFree sh) (hytf : TabFree yes) (hntf : TabFree no)
    (hshc : sh ∉ cands)
    (hcase : tLines = [] ∨ ∃ ref : Nat,
      resolveAnchor cands ((tLines.map lineToRow).headD []) = some ref ∧
      ref + 1 ≤ (listIndexOf sh ((tLines.map lineToRow).headD [])).getD
        (ref + 1))
    (hrun : runTagFile sh cands yes no (some refLines) (some tLines) =
      Except.ok out1) :
    runTagFile sh cands yes no (some refLines) (some out1) =
      Except.ok out1 := by
  rcases hcase with hemp | ⟨ref, href, hpos⟩
  · subst hemp
    rw [runTagFile_empty_table] at hrun
    have hout : ([] : List String) = out1 := Except.ok.inj hrun
    rw [← hout]
    exact runTagFile_empty_table sh yes no cands refLines
  · cases tLines with
    | nil =>
        exfalso
        rw [List.map_nil] at href
        rw [show (([] : List (List String)).headD []) = [] from rfl] at href
        rw [resolveAnchor_nil_header] at href
        exact Option.noConfusion href
    | cons l0 rest =>
        have hh : (((l0 :: rest).map lineToRow).headD []) = lineToRow l0 := rfl
        rw [hh] at href hpos
        rw [runTagFile_cons] at hrun
        cases htr : tagRows sh cands yes no
            (namesOfRows (refLines.map lineToRow))
            (lineToRow l0 :: rest.map lineToRow) with
        | error e =>
            rw [htr] at hrun
            exact Except.noConfusion hrun
        | ok outRows =>
            rw [htr] at hrun
            have hout1 : outRows.map rowToLine = out1 := Except.ok.inj hrun
            have hrt := tagRows_output_roundtrip sh yes no cands
              (namesOfRows (refLines.map lineToRow)) (lineToRow l0)
              (rest.map lineToRow) ref hshtf hytf hntf href hpos
              (lineToRow_tabFree l0)
              (fun r hr => by
                rcases List.mem_map.mp hr with ⟨l, _, hlr⟩
                rw [← hlr]
                exact lineToRow_tabFree l)
              outRows htr
            have hfp := tagRows_fixedpoint sh yes no cands
              (namesOfRows (refLines.map lineToRow)) (lineToRow l0)
              (rest.map lineToRow) ref hshc href hpos outRows htr
            have htr' := htr
            rw [tagRows_cons_eq href] at htr'
            have hcons := Except.ok.inj htr'
            subst hout1
            cases outRows with
            | nil => exact absurd hcons (List.cons_ne_nil _ _)
            | cons oh ods =>
                rw [List.map_cons, runTagFile_cons]
                have h1 : lineToRow (rowToLine oh) = oh :=
                  hrt oh (List.mem_cons_self oh ods)
                have h2 : (ods.map rowToLine).map lineToRow = ods :=
                  map_roundtrip_id
                    (fun r hr => hrt r (List.mem_cons_of_mem oh hr))
                rw [h1, h2, hfp]
                rfl

/-! ### Claim theorems -/

/-- C1 (amended): for every anchored tagging operation whose anchor
resolves to index `ref`, provided the status column occurs at most once in
the header (column names are unique in the data model) and, when it must be
relocated, the target position `ref + 1` is not past the header's last
index, the written header has the status column exactly at index `ref + 1`
and every non-empty written data row has a field at that index.  The
unamended claim fails when the resolved anchor is the last header column
and the status column must be relocated: Python's `insert` clamp leaves the
header name at index `ref`, see the counterexample. -/
theorem positional_invariant_amended (sh yes no : String)
    (cands names h : List String) (ds : List (List String)) (ref : Nat)
    (out : List (List String))
    (href : resolveAnchor cands h = some ref)
    (hcnt : h.count sh ≤ 1)
    (hnoclamp : listIndexOf sh h = none ∨ listIndexOf sh h = some (ref + 1) ∨
      ref + 1 < h.length)
    (hrun : tagRows sh cands yes no names (h :: ds) = Except.ok out) :
    ∃ h' ds', out = h' :: ds' ∧ listIndexOf sh h' = some (ref + 1) ∧
      ∀ r' ∈ ds', r' ≠ [] → ref + 1 < r'.length := by
  rcases resolveAnchor_elim href with ⟨pre, c, post, hcands, hpre0, hc⟩
  have hreflt : ref < h.length := listIndexOf_some_lt hc
  rw [tagRows_cons_eq href] at hrun
  have hrows : ∀ (X : List (List String)),
      ∀ r' ∈ X.map (assignRow names yes no (ref + 1)),
        r' ≠ [] → ref + 1 < r'.length := by
    intro X r' hr' hne
    rcases List.mem_map.mp hr' with ⟨r0, _, hr0⟩
    cases r0 with
    | nil =>
        rw [← hr0, assignRow_nil] at hne
        exact absurd rfl hne
    | cons k t =>
        rw [← hr0, assignRow_length]
        omega
  cases hidx : listIndexOf sh h with
  | none =>
      rw [ensure_eq_none ds hidx] at hrun
      have hout := Except.ok.inj hrun
      exact ⟨_, _, hout.symm,
        listIndexOf_insert_fresh (by omega) (listIndexOf_eq_none.mp hidx),
        hrows _⟩
  | some current =>
      by_cases hce : current = ref + 1
      · subst hce
        rw [ensure_eq_at_desired ds hidx] at hrun
        have hout := Except.ok.inj hrun
        exact ⟨_, _, hout.symm, hidx, hrows _⟩
      · have hlen : ref + 1 < h.length := by
          rcases hnoclamp with h1 | h1 | h1
          · rw [hidx] at h1
            exact Option.noConfusion h1
          · rw [hidx] at h1
            exact absurd (Option.some.inj h1) hce
          · exact h1
        rw [ensure_eq_relocate ds hidx hce] at hrun
        have hout := Except.ok.inj hrun
        exact ⟨_, _, hout.symm,
          listIndexOf_insert_after_pop_unique hidx hcnt hlen, hrows _⟩

/-- Witness for C1's amended theorem at a concrete input (column absent,
anchor `CMDB Status` at index 1, target index 2). -/
theorem positional_invariant_amended_witness :
    ∃ h' ds',
      [["Name", "CMDB Status", "Delayed Data Upload"],
        ["host1", "x", "NO"]] = h' :: ds' ∧
      listIndexOf "Delayed Data Upload" h' = some 2 ∧
      ∀ r' ∈ ds', r' ≠ [] → 2 < r'.length :=
  positional_invariant_amended "Delayed Data Upload" "YES" "NO"
    ["CMDB Status"] [] ["Name", "CMDB Status"] [["host1", "x"]] 1
    [["Name", "CMDB Status", "Delayed Data Upload"], ["host1", "x", "NO"]]
    (by decide) (by decide) (by decide) (by decide)

/-- Counterexample to C1 as stated: in stage 015 the anchor `CMDB Status`
resolves to index 2 (the last header column), the status column `Delayed
Data Upload` is relocated, and after the operation it sits at header index
2, not at the resolved anchor index + 1 = 3. -/
theorem positional_invariant_counterexample :
    tag_delayed_status (some ["H"])
      (some ["Name\tDelayed Data Upload\tCMDB Status", "host1\tv\tc"]) =
      Except.ok ["Name\tCMDB Status\tDelayed Data Upload",
        "host1\tc\t\tNO"] ∧
    resolveAnchor ["CMDB Status"]
      (lineToRow "Name\tDelayed Data Upload\tCMDB Status") = some 2 ∧
    listIndexOf "Delayed Data Upload"
      (lineToRow "Name\tCMDB Status\tDelayed Data Upload") = some 2 ∧
    (2 : Nat) ≠ 2 + 1 :=
  ⟨by decide, by decide, by decide, by decide⟩

/-- Witness for C2's amended theorem at a concrete input: the second run of
stage 020 on the file written by the first run reproduces it exactly. -/
theorem tag_idempotent_amended_witness :
    runTagFile "Failed Scan" ["Delayed Data Upload"] "YES" "NO"
      (some ["H", "host1"])
      (some ["Name\tDelayed Data Upload\tFailed Scan", "host1\tx\tYES"]) =
    Except.ok ["Name\tDelayed Data Upload\tFailed Scan", "host1\tx\tYES"] :=
  tag_idempotent_amended "Failed Scan" "YES" "NO" ["Delayed Data Upload"]
    ["H", "host1"] ["Name\tDelayed Data Upload", "host1\tx"]
    ["Name\tDelayed Data Upload\tFailed Scan", "host1\tx\tYES"]
    (by decide) (by decide) (by decide) (by decide)
    (Or.inr ⟨1, by decide, by decide⟩) (by decide)

/-- Counterexample to C2 as stated: when the status column `Failed Scan`
already sits before its anchor `Delayed Data Upload` (which is the last
header column), the first run of stage 020 misplaces the header name, and
the second run with unchanged inputs produces a different file. -/
theorem tag_idempotent_counterexample :
    tag_failed_scan_status (some ["H", "host1"])
      (some ["Name\tFailed Scan\tDelayed Data Upload", "host1\tYES\tx"]) =
      Except.ok ["Name\tDelayed Data Upload\tFailed Scan",
        "host1\tx\t\tYES"] ∧
    tag_failed_scan_status (some ["H", "host1"])
      (some ["Name\tDelayed Data Upload\tFailed Scan", "host1\tx\t\tYES"]) =
      Except.ok ["Name\tDelayed Data Upload\tFailed Scan",
        "host1\tx\tYES\tYES"] ∧
    serializeLines ["Name\tDelayed Data Upload\tFailed Scan",
        "host1\tx\t\tYES"] ≠
      serializeLines ["Name\tDelayed Data Upload\tFailed Scan",
        "host1\tx\tYES\tYES"] :=
  ⟨by decide, by decide, by decide⟩

/-- C3 (amended): for the anchored tagging operations (stages 015, 020,
025, 030, 040, 050 are instances of `runTagFile`), when the table is
non-empty and none of the anchor candidates occurs in its header, the
operation fails with `InvalidSchema` (`ValueError` in the source) and the
table file on disk is left exactly as it was.  The unamended claim is false
for stage 010, which inserts the missing reference column and proceeds (see
the counterexample), and stage 005 has no anchor requirement at all. -/
theorem invalid_schema_amended (sh yes no : String)
    (cands refLines rest : List String) (l0 : String)
    (hanch : resolveAnchor cands (lineToRow l0) = none) :
    diskRun (runTagFile sh cands yes no)
      ⟨some (l0 :: rest), some refLines⟩ =
      (⟨some (l0 :: rest), some refLines⟩,
        Except.error TagError.invalidSchema) := by
  have ht : tagRows sh cands yes no
      (namesOfRows (refLines.map lineToRow))
      (lineToRow l0 :: rest.map lineToRow) =
      Except.error TagError.invalidSchema := by
    simp only [tagRows, hanch]
  have h1 : runTagFile sh cands yes no (some refLines)
      (some (l0 :: rest)) = Except.error TagError.invalidSchema := by
    rw [runTagFile_cons, ht]
  simp only [diskRun, h1]

/-- Witness for C3's amended theorem: stage 015 on a table missing its
anchor column `CMDB Status`. -/
theorem invalid_schema_amended_witness :
    diskRun (runTagFile "Delayed Data Upload" ["CMDB Status"] "YES" "NO")
      ⟨some ["Name", "host1"], some ["H"]⟩ =
      (⟨some ["Name", "host1"], some ["H"]⟩,
        Except.error TagError.invalidSchema) :=
  invalid_schema_amended "Delayed Data Upload" "YES" "NO" ["CMDB Status"]
    ["H"] ["host1"] "Name" (by decide)

/-- Counterexample to C3 as stated: stage 010's reference column
`Not reporting to BigFix` is absent from the header, yet the operation
succeeds and rewrites the table file (inserting the missing column at index
1) instead of failing with `InvalidSchema` and leaving the file alone. -/
theorem invalid_schema_counterexample :
    diskRun tag_cmdb_status ⟨some ["Name", "host1"], some ["H", "host2"]⟩ =
      (⟨some ["Name\tNot reporting to BigFix\tCMDB Status",
          "host1\t\tNot in CMDB"], some ["H", "host2"]⟩, Except.ok ()) ∧
    (["Name\tNot reporting to BigFix\tCMDB Status",
        "host1\t\tNot in CMDB"] : List String) ≠ ["Name", "host1"] :=
  ⟨by decide, by decide⟩

/-- C4: after an anchored tagging pass, every written data row that starts
with a key whose trimmed value is non-empty carries, at the status index,
`yes` exactly when the key is in the reference set and `no` otherwise; and
the value-assignment pass maps a fully empty row to itself (rows parsed
from blank lines are skipped). -/
theorem membership_correctness (sh yes no : String)
    (cands names h : List String) (ds : List (List String)) (ref : Nat)
    (out : List (List String)) (hyn : yes ≠ no)
    (href : resolveAnchor cands h = some ref)
    (hrun : tagRows sh cands yes no names (h :: ds) = Except.ok out) :
    (∀ r' ∈ out.drop 1, ∀ k t, r' = k :: t → pyStrip k ≠ "" →
      (r'[ref + 1]? = some (if pyStrip k ∈ names then yes else no) ∧
        (r'[ref + 1]? = some yes ↔ pyStrip k ∈ names))) ∧
    ∀ i : Nat, assignRow names yes no i [] = [] := by
  refine ⟨?_, fun i => rfl⟩
  rw [tagRows_cons_eq href] at hrun
  have hout := Except.ok.inj hrun
  intro r' hr' k t hrkt hkne
  rw [← hout] at hr'
  simp only [List.drop_succ_cons, List.drop_zero] at hr'
  rcases List.mem_map.mp hr' with ⟨x, _, hxr⟩
  cases x with
  | nil =>
      rw [assignRow_nil] at hxr
      rw [← hxr] at hrkt
      exact absurd hrkt (List.noConfusion)
  | cons k0 t0 =>
      obtain ⟨t', ht'⟩ :=
        @assignRow_head names yes no (ref + 1) (by omega) k0 t0
      have hself := assignRow_getElem?_self names yes no (ref + 1) k0 t0
      rw [ht'] at hself
      rw [ht'] at hxr
      have hk : k0 = k := by
        rw [← hxr] at hrkt
        exact (List.cons.inj hrkt).1
      subst hk
      rw [← hxr]
      refine ⟨hself, ?_⟩
      by_cases hm : pyStrip k0 ∈ names
      · rw [if_pos hm] at hself
        exact ⟨fun _ => hm, fun _ => hself⟩
      · rw [if_neg hm] at hself
        constructor
        · intro hcontra
          rw [hself] at hcontra
          exact absurd (Option.some.inj hcontra).symm hyn
        · intro hcontra
          exact absurd hcontra hm

/-- Witness for C4 at a concrete input of stage 020: `host1` is in the
reference set and is tagged `YES`; `host2` is not and is tagged `NO`. -/
theorem membership_correctness_witness :
    (∀ r' ∈ ([["Name", "Delayed Data Upload", "Failed Scan"],
        ["host1", "x", "YES"], ["host2", "y", "NO"]].drop 1),
      ∀ k t, r' = k :: t → pyStrip k ≠ "" →
      (r'[2]? = some (if pyStrip k ∈ ["host1"] then "YES" else "NO") ∧
        (r'[2]? = some "YES" ↔ pyStrip k ∈ ["host1"]))) ∧
    ∀ i : Nat, assignRow ["host1"] "YES" "NO" i [] = [] :=
  membership_correctness "Failed Scan" "YES" "NO" ["Delayed Data Upload"]
    ["host1"] ["Name", "Delayed Data Upload"]
    [["host1", "x"], ["host2", "y"]] 1
    [["Name", "Delayed Data Upload", "Failed Scan"],
      ["host1", "x", "YES"], ["host2", "y", "NO"]]
    (by decide) (by decide) (by decide)

/-- C5: when the status column already exists at `current ≠ desired`, the
structural phase relocates it: the header name is popped and reinserted,
every data row is rewritten by `relocateRow`, and each row's previously
stored value at `current` reappears at the desired index (rows shorter than
`current` contribute the empty string).  Stage 025 (`tag_missing_scan`,
lines 68–78) is an instance; the membership pass then recomputes the value
in the same run, as the spec notes. -/
theorem relocation_preserves_values (sh : String) (desired current : Nat)
    (h : List String) (ds : List (List String))
    (hcur : listIndexOf sh h = some current) (hne : current ≠ desired) :
    ensureHeaderAndRows sh desired h ds =
      (pyInsert desired sh (pyPop current h),
        ds.map (relocateRow current desired)) ∧
    ∀ r ∈ ds, (relocateRow current desired r)[desired]? =
      some (r.getD current "") := by
  refine ⟨ensure_eq_relocate ds hcur hne, ?_⟩
  intro r _
  rw [relocateRow]
  by_cases hc : current < r.length
  · rw [if_pos hc]
    apply pyInsert_getElem?_self
    rw [padTo_length]
    omega
  · rw [if_neg hc]
    have hd : r.getD current "" = "" := List.getD_eq_default r "" (by omega)
    rw [hd]
    apply pyInsert_getElem?_self
    rw [padTo_length]
    omega

/-- Witness for C5: stage 025 relocating `Missing Scan` from index 1 to
index 3; the row value `OLD` moves with the column. -/
theorem relocation_preserves_values_witness :
    ensureHeaderAndRows "Missing Scan" 3
      ["Name", "Missing Scan", "Failed Scan"] [["host1", "OLD", "z"]] =
      (pyInsert 3 "Missing Scan"
        (pyPop 1 ["Name", "Missing Scan", "Failed Scan"]),
        [["host1", "OLD", "z"]].map (relocateRow 1 3)) ∧
    ∀ r ∈ [["host1", "OLD", "z"]],
      (relocateRow 1 3 r)[3]? = some (r.getD 1 "") :=
  relocation_preserves_values "Missing Scan" 3 1
    ["Name", "Missing Scan", "Failed Scan"] [["host1", "OLD", "z"]]
    (by decide) (by decide)

/-- C6: a table file that exists but has zero rows makes every tagging
operation a successful no-op: the result is `ok` and the table file on disk
is unchanged.  This covers the parameterised anchored operation (stages
015–050) and the separately embedded stages 005 and 010. -/
theorem empty_table_noop (sh yes no : String)
    (cands refLines : List String) :
    diskRun (runTagFile sh cands yes no) ⟨some [], some refLines⟩ =
      (⟨some [], some refLines⟩, Except.ok ()) ∧
    diskRun tag_reporting_status ⟨some [], some refLines⟩ =
      (⟨some [], some refLines⟩, Except.ok ()) ∧
    diskRun tag_cmdb_status ⟨some [], some refLines⟩ =
      (⟨some [], some refLines⟩, Except.ok ()) :=
  ⟨rfl, rfl, rfl⟩

theorem collectNames_cons_nil (rs : List (List String)) :
    collectNames ([] :: rs) = collectNames rs := rfl

theorem collectNames_cons_cons (k0 : String) (t0 : List String)
    (rs : List (List String)) :
    collectNames ((k0 :: t0) :: rs) =
      (if pyStrip k0 = "" then collectNames rs
        else if pyStrip k0 ∈ collectNames rs then collectNames rs
        else pyStrip k0 :: collectNames rs) := rfl

theorem collectNames_mem :
    ∀ (rows : List (List String)) (x : String),
      x ∈ collectNames rows ↔
        (x ≠ "" ∧ ∃ r ∈ rows, ∃ k t, r = k :: t ∧ pyStrip k = x) := by
  intro rows
  induction rows with
  | nil =>
      intro x
      simp [collectNames]
  | cons r rs ih =>
      intro x
      cases r with
      | nil =>
          rw [collectNames_cons_nil, ih x]
          constructor
          · rintro ⟨hne, r0, hr0, k, t, hrkt, hks⟩
            exact ⟨hne, r0, List.mem_cons_of_mem _ hr0, k, t, hrkt, hks⟩
          · rintro ⟨hne, r0, hr0, k, t, hrkt, hks⟩
            rcases List.mem_cons.mp hr0 with h1 | h2
            · rw [h1] at hrkt
              exact absurd hrkt (List.noConfusion)
            · exact ⟨hne, r0, h2, k, t, hrkt, hks⟩
      | cons k0 t0 =>
          rw [collectNames_cons_cons]
          by_cases h0 : pyStrip k0 = ""
          · rw [if_pos h0, ih x]
            constructor
            · rintro ⟨hne, r0, hr0, k, t, hrkt, hks⟩
              exact ⟨hne, r0, List.mem_cons_of_mem _ hr0, k, t, hrkt, hks⟩
            · rintro ⟨hne, r0, hr0, k, t, hrkt, hks⟩
              rcases List.mem_cons.mp hr0 with h1 | h2
              · rw [h1] at hrkt
                have hkk : k0 = k := (List.cons.inj hrkt).1
                rw [← hks, ← hkk] at hne
                exact absurd h0 hne
              · exact ⟨hne, r0, h2, k, t, hrkt, hks⟩
          · rw [if_neg h0]
            by_cases hm : pyStrip k0 ∈ collectNames rs
            · rw [if_pos hm, ih x]
              constructor
              · rintro ⟨hne, r0, hr0, k, t, hrkt, hks⟩
                exact ⟨hne, r0, List.mem_cons_of_mem _ hr0, k, t, hrkt, hks⟩
              · rintro ⟨hne, r0, hr0, k, t, hrkt, hks⟩
                rcases List.mem_cons.mp hr0 with h1 | h2
                · rw [h1] at hrkt
                  have hkk : k0 = k := (List.cons.inj hrkt).1
                  rw [← hks, ← hkk]
                  exact (ih (pyStrip k0)).mp hm
                · exact ⟨hne, r0, h2, k, t, hrkt, hks⟩
            · rw [if_neg hm]
              constructor
              · intro hx
                rcases List.mem_cons.mp hx with h1 | h2
                · refine ⟨h1 ▸ h0, k0 :: t0, List.mem_cons_self _ _,
                    k0, t0, rfl, h1.symm⟩
                · rcases (ih x).mp h2 with ⟨hne, r0, hr0, k, t, hrkt, hks⟩
                  exact ⟨hne, r0, List.mem_cons_of_mem _ hr0, k, t,
                    hrkt, hks⟩
              · rintro ⟨hne, r0, hr0, k, t, hrkt, hks⟩
                rcases List.mem_cons.mp hr0 with h1 | h2
                · rw [h1] at hrkt
                  have hkk : k0 = k := (List.cons.inj hrkt).1
                  rw [← hks, ← hkk]
                  exact List.mem_cons_self _ _
                · exact List.mem_cons_of_mem _
                    ((ih x).mpr ⟨hne, r0, h2, k, t, hrkt, hks⟩)

theorem collectNames_nodup :
    ∀ rows : List (List String), (collectNames rows).Nodup := by
  intro rows
  induction rows with
  | nil => exact List.nodup_nil
  | cons r rs ih =>
      cases r with
      | nil => rw [collectNames_cons_nil]; exact ih
      | cons k0 t0 =>
          rw [collectNames_cons_cons]
          by_cases h0 : pyStrip k0 = ""
          · rw [if_pos h0]
            exact ih
          · rw [if_neg h0]
            by_cases hm : pyStrip k0 ∈ collectNames rs
            · rw [if_pos hm]
              exact ih
            · rw [if_neg hm]
              exact List.nodup_cons.mpr ⟨hm, ih⟩

/-- C7: contract of the reference-set loader.  It fails with `NotFound`
exactly when the file is absent; on a present file it returns the set of
trimmed, non-empty first-column values of all rows after the header row,
with duplicates collapsed (the result has no duplicates and membership is
exactly "some later row starts with a key trimming to this value"); blank
lines (parsed as empty rows) and rows with an empty trimmed key contribute
nothing. -/
theorem load_computer_names_contract :
    (∀ file : Option (List String),
      (load_computer_names file = Except.error TagError.notFound ↔
        file = none)) ∧
    (∀ ls : List String,
      load_computer_names (some ls) =
        Except.ok (namesOfRows (ls.map lineToRow))) ∧
    (∀ (ls : List String) (x : String),
      x ∈ namesOfRows (ls.map lineToRow) ↔
        (x ≠ "" ∧ ∃ r ∈ ((ls.map lineToRow).drop 1), ∃ k t, r = k :: t ∧
          pyStrip k = x)) ∧
    (∀ ls : List String, (namesOfRows (ls.map lineToRow)).Nodup) := by
  refine ⟨?_, fun ls => rfl, ?_, ?_⟩
  · intro file
    cases file with
    | none => exact ⟨fun _ => rfl, fun _ => rfl⟩
    | some ls =>
        constructor
        · intro hc
          exact absurd hc (by simp [load_computer_names])
        · intro hc
          exact Option.noConfusion hc
  · intro ls x
    exact collectNames_mem ((ls.map lineToRow).drop 1) x
  · intro ls
    exact collectNames_nodup ((ls.map lineToRow).drop 1)

/-- C8: row-padding safety for the anchored tagging pass.  Every written
non-empty data row has strictly more fields than the status index, so the
final status assignment `row[status_index] = status` is always in range;
and in the column-insertion branch a row shorter than the desired index is
padded first, all filler fields being the empty string. -/
theorem row_padding_safety (sh yes no : String)
    (cands names h : List String) (ds : List (List String)) (ref : Nat)
    (out : List (List String))
    (href : resolveAnchor cands h = some ref)
    (hrun : tagRows sh cands yes no names (h :: ds) = Except.ok out) :
    (∀ r' ∈ out.drop 1, r' ≠ [] → ref + 1 < r'.length) ∧
    (listIndexOf sh h = none →
      out.drop 1 = ds.map (fun r =>
        assignRow names yes no (ref + 1)
          (pyInsert (ref + 1) "" (padTo (ref + 1) r))) ∧
      ∀ r ∈ ds, r.length < ref + 1 →
        (assignRow names yes no (ref + 1)
            (pyInsert (ref + 1) "" (padTo (ref + 1) r))).length = ref + 2 ∧
        ∀ j, r.length ≤ j → j < ref + 1 →
          (assignRow names yes no (ref + 1)
            (pyInsert (ref + 1) "" (padTo (ref + 1) r)))[j]? = some "") := by
  rw [tagRows_cons_eq href] at hrun
  have hout := Except.ok.inj hrun
  constructor
  · intro r' hr' hne
    rw [← hout] at hr'
    simp only [List.drop_succ_cons, List.drop_zero] at hr'
    rcases List.mem_map.mp hr' with ⟨x, _, hxr⟩
    cases x with
    | nil =>
        rw [assignRow_nil] at hxr
        rw [← hxr] at hne
        exact absurd rfl hne
    | cons k t =>
        rw [← hxr, assignRow_length]
        omega
  · intro hidx
    rw [ensure_eq_none ds hidx] at hout
    constructor
    · rw [← hout]
      simp only [List.drop_succ_cons, List.drop_zero, List.map_map]
      rfl
    · intro r hr hshort
      have hpadlen : (padTo (ref + 1) r).length = ref + 1 := by
        rw [padTo_length]
        omega
      have hXlen : (pyInsert (ref + 1) "" (padTo (ref + 1) r)).length =
          ref + 2 := by
        rw [pyInsert_length, hpadlen]
      cases hX : pyInsert (ref + 1) "" (padTo (ref + 1) r) with
      | nil =>
          rw [hX] at hXlen
          exact absurd hXlen (by simp)
      | cons k0 t0 =>
          rw [hX] at hXlen
          constructor
          · rw [assignRow_length, hXlen]
            omega
          · intro j hj1 hj2
            rw [assignRow_cons]
            rw [if_neg (by omega)]
            rw [List.getElem?_set, if_neg (by omega)]
            rw [← hX]
            rw [pyInsert_getElem?_lt _ _ (by omega) (by omega)]
            exact padTo_getElem?_pad r hj1 hj2

/-- Witness for C8 at a concrete stage-020 input whose single data row is
shorter than the desired column index. -/
theorem row_padding_safety_witness :
    (∀ r' ∈ ([["Name", "Delayed Data Upload", "Failed Scan"],
        ["host1", "", "YES"]].drop 1), r' ≠ [] → 2 < r'.length) ∧
    (listIndexOf "Failed Scan" ["Name", "Delayed Data Upload"] = none →
      [["Name", "Delayed Data Upload", "Failed Scan"],
        ["host1", "", "YES"]].drop 1 = [["host1"]].map (fun r =>
        assignRow ["host1"] "YES" "NO" 2
          (pyInsert 2 "" (padTo 2 r))) ∧
      ∀ r ∈ [["host1"]], r.length < 2 →
        (assignRow ["host1"] "YES" "NO" 2
            (pyInsert 2 "" (padTo 2 r))).length = 3 ∧
        ∀ j, r.length ≤ j → j < 2 →
          (assignRow ["host1"] "YES" "NO" 2
            (pyInsert 2 "" (padTo 2 r)))[j]? = some "") :=
  row_padding_safety "Failed Scan" "YES" "NO" ["Delayed Data Upload"]
    ["host1"] ["Name", "Delayed Data Upload"] [["host1"]] 1
    [["Name", "Delayed Data Upload", "Failed Scan"], ["host1", "", "YES"]]
    (by decide) (by decide)

theorem diskRun_error_frame
    (f : Option (List String) → Option (List String) →
      Except TagError (List String)) (d : Disk) :
    ∀ e, (diskRun f d).2 = Except.error e → (diskRun f d).1 = d := by
  intro e he
  cases hres : f d.ref d.table with
  | error e' => simp only [diskRun, hres]
  | ok nl =>
      simp only [diskRun, hres] at he
      exact Except.noConfusion he

/-- C9: failure atomicity.  On any error result the table file is exactly
its previous content, for the parameterised anchored operation and for
stages 005 and 010; and the three failure conditions (missing reference
file, missing table file, unresolvable anchor) each produce an error with
the disk unchanged — the scripts open the table for writing only after all
of these checks have passed. -/
theorem failure_atomicity (sh yes no : String) (cands : List String)
    (d : Disk) :
    (∀ e, (diskRun (runTagFile sh cands yes no) d).2 = Except.error e →
      (diskRun (runTagFile sh cands yes no) d).1 = d) ∧
    (∀ e, (diskRun tag_reporting_status d).2 = Except.error e →
      (diskRun tag_reporting_status d).1 = d) ∧
    (∀ e, (diskRun tag_cmdb_status d).2 = Except.error e →
      (diskRun tag_cmdb_status d).1 = d) ∧
    (d.ref = none →
      diskRun (runTagFile sh cands yes no) d =
        (d, Except.error TagError.notFound)) ∧
    (∀ rl, d.ref = some rl → d.table = none →
      diskRun (runTagFile sh cands yes no) d =
        (d, Except.error TagError.notFound)) ∧
    (∀ rl l0 rest, d.ref = some rl → d.table = some (l0 :: rest) →
      resolveAnchor cands (lineToRow l0) = none →
      diskRun (runTagFile sh cands yes no) d =
        (d, Except.error TagError.invalidSchema)) := by
  refine ⟨diskRun_error_frame _ d, diskRun_error_frame _ d,
    diskRun_error_frame _ d, ?_, ?_, ?_⟩
  · intro hr
    have h1 : runTagFile sh cands yes no d.ref d.table =
        Except.error TagError.notFound := by
      rw [hr]
      rfl
    simp only [diskRun, h1]
  · intro rl hr ht
    have h1 : runTagFile sh cands yes no d.ref d.table =
        Except.error TagError.notFound := by
      rw [hr, ht]
      rfl
    simp only [diskRun, h1]
  · intro rl l0 rest hr ht hanch
    have ht2 : tagRows sh cands yes no
        (namesOfRows (rl.map lineToRow))
        (lineToRow l0 :: rest.map lineToRow) =
        Except.error TagError.invalidSchema := by
      simp only [tagRows, hanch]
    have h1 : runTagFile sh cands yes no d.ref d.table =
        Except.error TagError.invalidSchema := by
      rw [hr, ht, runTagFile_cons, ht2]
    simp only [diskRun, h1]

/-- Witness for C9: a missing reference file fails with `NotFound` and
leaves the disk untouched. -/
theorem failure_atomicity_witness :
    diskRun (runTagFile "Failed Scan" ["Delayed Data Upload"] "YES" "NO")
      ⟨some ["Name"], none⟩ =
      (⟨some ["Name"], none⟩, Except.error TagError.notFound) :=
  (failure_atomicity "Failed Scan" "YES" "NO" ["Delayed Data Upload"]
    ⟨some ["Name"], none⟩).2.2.2.1 rfl

/-- C10: the stage-005 tagger has no anchor and never relocates its status
column.  When `Not reporting to BigFix` already occurs in the header at
index `i`, the written header is the input header unchanged and the rows
are only overwritten at index `i` by the value-assignment pass; the column
is inserted at index 1 (with a per-row splice at index 1) only when it is
absent. -/
theorem reporting_column_kept_in_place (refLines rest : List String)
    (l0 : String) (out : List String)
    (hrun : tag_reporting_status (some refLines) (some (l0 :: rest)) =
      Except.ok out) :
    (∀ i, listIndexOf "Not reporting to BigFix" (lineToRow l0) = some i →
      out = ((lineToRow l0) :: ((rest.map lineToRow).map
        (assignRow (namesOfRows (refLines.map lineToRow))
          "Not Reporting" "Reporting" i))).map rowToLine) ∧
    (listIndexOf "Not reporting to BigFix" (lineToRow l0) = none →
      out = ((pyInsert 1 "Not reporting to BigFix" (lineToRow l0)) ::
        (((rest.map lineToRow).map (pyInsert 1 "")).map
          (assignRow (namesOfRows (refLines.map lineToRow))
            "Not Reporting" "Reporting" 1))).map rowToLine) := by
  constructor
  · intro i hidx
    simp only [tag_reporting_status, load_computer_names, List.map_cons,
      hidx] at hrun
    exact (Except.ok.inj hrun).symm
  · intro hidx
    simp only [tag_reporting_status, load_computer_names, List.map_cons,
      hidx] at hrun
    exact (Except.ok.inj hrun).symm

/-- Witness for C10: the pre-existing column at index 2 stays at index 2
and only its per-row values are overwritten. -/
theorem reporting_column_kept_in_place_witness :
    (["Name\tX\tNot reporting to BigFix", "host1\ta\tNot Reporting"] :
        List String) =
      ((lineToRow "Name\tX\tNot reporting to BigFix") ::
        ((["host1\ta\tb"].map lineToRow).map
          (assignRow (namesOfRows (["H", "host1"].map lineToRow))
            "Not Reporting" "Reporting" 2))).map rowToLine :=
  (reporting_column_kept_in_place ["H", "host1"] ["host1\ta\tb"]
    "Name\tX\tNot reporting to BigFix"
    ["Name\tX\tNot reporting to BigFix", "host1\ta\tNot Reporting"]
    (by decide)).1 2 (by decide)
